import Mathlib

/-!
Verification of a webhook-driven LINE chat relay (`src/index.js`).

The development shallowly embeds the program's pure core:

* the message chunker `splitMessage(text, maxLength)`;
* the in-memory conversation history store (`getHistory`, `addToHistory`,
  `clearHistory` over a `Map` from conversation id to an array of turns);
* the model gateway `getChatResponse` (the remote chat call is opaque and is
  passed in as an `Except` result);
* the event dispatcher `handleEvent`.

JS strings are modelled as `List Char` (every character appearing in the
program's string literals and separators is a single UTF-16 code unit, so
code-unit indexing coincides with character indexing). JS `-1`-returning
index searches are modelled over `Int`.
-/

namespace LineBot

/-- JS `remaining.lastIndexOf(c, fromIndex)` for a one-character needle,
as an `Option`: the largest index `i ≤ fromIndex` with `s[i] = c`. -/
def lastIdxLe (s : List Char) (c : Char) (fromIndex : Nat) : Option Nat :=
  ((List.range s.length).filter
    (fun i => decide (i ≤ fromIndex) && decide (s.get? i = some c))).getLast?

/-- JS `remaining.lastIndexOf(c, fromIndex)` with the JS `-1` convention. -/
def jsLastIndexOf (s : List Char) (c : Char) (fromIndex : Nat) : Int :=
  match lastIdxLe s c fromIndex with
  | some i => (i : Int)
  | none => -1

/-- The break-point search of `splitMessage` (src/index.js lines 205-214):
try `'\n'`, then `'。'`, then `' '`; a candidate is rejected when it is `-1`
or below `maxLength / 2` (JS float division; for integers
`bp < maxLength / 2 ↔ 2 * bp < maxLength`); otherwise hard-cut value
`maxLength`. -/
def breakPointOf (remaining : List Char) (maxLength : Nat) : Int :=
  let bp1 := jsLastIndexOf remaining '\n' maxLength
  let bp2 := if bp1 = -1 ∨ 2 * bp1 < (maxLength : Int) then
    jsLastIndexOf remaining '。' maxLength else bp1
  let bp3 := if bp2 = -1 ∨ 2 * bp2 < (maxLength : Int) then
    jsLastIndexOf remaining ' ' maxLength else bp2
  if bp3 = -1 ∨ 2 * bp3 < (maxLength : Int) then (maxLength : Int) else bp3

/-- The `while (remaining.length > 0)` loop of `splitMessage`
(src/index.js lines 198-218): each iteration pushes
`remaining.substring(0, breakPoint + 1)` and continues on
`remaining.substring(breakPoint + 1)`. Every iteration consumes
`breakPoint + 1 ≥ 1` characters, so `fuel = remaining.length` runs the loop
to completion; fuel keeps the recursion structural. -/
def splitGo (fuel : Nat) (remaining : List Char) (maxLength : Nat) :
    List (List Char) :=
  match fuel with
  | 0 => []
  | f + 1 =>
    if remaining.length = 0 then []
    else if remaining.length ≤ maxLength then [remaining]
    else
      let bp := (breakPointOf remaining maxLength).toNat
      remaining.take (bp + 1) :: splitGo f (remaining.drop (bp + 1)) maxLength

/-- `splitMessage(text, maxLength)` (src/index.js lines 190-221). -/
def splitMessage (text : List Char) (maxLength : Nat) : List (List Char) :=
  if text.length ≤ maxLength then [text] else splitGo text.length text maxLength

/-- Second definition for the refinement claim about the cut procedure,
following the spec's words: a candidate break point is rejected when there
is none or its position is below `maxLength / 2`. -/
def claimedAccept (m : Nat) : Option Nat → Option Nat
  | some p => if 2 * p < m then none else some p
  | none => none

/-- The claimed break-point search, following the spec's words: last
newline at or before index `maxLength`; if none or below `maxLength / 2`,
last sentence terminator; then last space; `none` means hard cut. -/
def claimedBreakPoint (r : List Char) (m : Nat) : Option Nat :=
  match claimedAccept m (lastIdxLe r '\n' m) with
  | some p => some p
  | none =>
    match claimedAccept m (lastIdxLe r '。' m) with
    | some p => some p
    | none => claimedAccept m (lastIdxLe r ' ' m)

/-- The loop of the claimed procedure: a cut at break point `p` keeps the
separator, taking `p + 1` characters; a hard cut takes exactly `maxLength`
characters, as the claim states. -/
def splitClaimedGo (fuel : Nat) (r : List Char) (m : Nat) :
    List (List Char) :=
  match fuel with
  | 0 => []
  | f + 1 =>
    if r.length = 0 then []
    else if r.length ≤ m then [r]
    else
      match claimedBreakPoint r m with
      | some p => r.take (p + 1) :: splitClaimedGo f (r.drop (p + 1)) m
      | none => r.take m :: splitClaimedGo f (r.drop m) m

/-- The chunker exactly as the claim describes it. -/
def splitMessageClaimed (text : List Char) (m : Nat) : List (List Char) :=
  if text.length ≤ m then [text] else splitClaimedGo text.length text m

/-- The amended procedure: identical except that the hard cut takes
`maxLength + 1` characters (break-point index `maxLength`, and the chunk
includes the character at the break-point index). -/
def splitFixedGo (fuel : Nat) (r : List Char) (m : Nat) : List (List Char) :=
  match fuel with
  | 0 => []
  | f + 1 =>
    if r.length = 0 then []
    else if r.length ≤ m then [r]
    else
      match claimedBreakPoint r m with
      | some p => r.take (p + 1) :: splitFixedGo f (r.drop (p + 1)) m
      | none => r.take (m + 1) :: splitFixedGo f (r.drop (m + 1)) m

/-- The chunker as the amended claim describes it. -/
def splitMessageFixed (text : List Char) (m : Nat) : List (List Char) :=
  if text.length ≤ m then [text] else splitFixedGo text.length text m

/-- A turn stored in the conversation history: the JS object
`{ role, parts: [{ text }] }` with its single-element `parts` wrapper
flattened to the text it carries. -/
structure Turn where
  role : String
  text : String
deriving DecidableEq, Repr

/-- A JS `Map` key as used by the program: `event.source.groupId` etc. can
be `undefined` (`none`) or a string. -/
abbrev Key := Option String

/-- `conversationHistory`, the in-memory `Map` (src/index.js line 34),
as an association list with `Map` operations. -/
abbrev Store := List (Key × List Turn)

/-- `MAX_HISTORY_LENGTH` (src/index.js line 37). -/
def MAX_HISTORY_LENGTH : Nat := 20

/-- `conversationHistory.get(id)` / `.has(id)` combined: `none` when the
key is absent. -/
def lookupEntry : Store → Key → Option (List Turn)
  | [], _ => none
  | (k, v) :: rest, id => if k = id then some v else lookupEntry rest id

/-- `conversationHistory.set(id, v)`: replace the entry or append it. -/
def setEntry : Store → Key → List Turn → Store
  | [], id, v => [(id, v)]
  | (k, w) :: rest, id, v =>
    if k = id then (id, v) :: rest else (k, w) :: setEntry rest id v

/-- `conversationHistory.delete(id)`. -/
def delEntry : Store → Key → Store
  | [], _ => []
  | (k, w) :: rest, id =>
    if k = id then delEntry rest id else (k, w) :: delEntry rest id

/-- `getHistory(conversationId)` (src/index.js lines 40-45): insert an
empty history on a miss, then return the entry; the (possibly updated)
store is returned alongside since the JS version mutates the `Map`. -/
def getHistory (store : Store) (id : Key) : List Turn × Store :=
  match lookupEntry store id with
  | some h => (h, store)
  | none => ([], setEntry store id [])

/-- `addToHistory(conversationId, role, content)` (src/index.js lines
48-56): push the turn, then `splice(0, length - MAX_HISTORY_LENGTH)` when
over the cap; the mutated array is the map entry. -/
def addToHistory (store : Store) (id : Key) (role content : String) :
    Store :=
  let hs := getHistory store id
  let h2 := hs.1 ++ [⟨role, content⟩]
  let h3 := if h2.length > MAX_HISTORY_LENGTH then
    h2.drop (h2.length - MAX_HISTORY_LENGTH) else h2
  setEntry hs.2 id h3

/-- `clearHistory(conversationId)` (src/index.js lines 59-61). -/
def clearHistory (store : Store) (id : Key) : Store := delEntry store id

/-- The turns currently stored for `id` (an absent entry reads as the
empty history, matching what `getHistory` would return for it). -/
def histOf (store : Store) (id : Key) : List Turn :=
  (lookupEntry store id).getD []

/-- The trimming step of `addToHistory` in isolation. -/
def trimHist (h : List Turn) : List Turn :=
  if h.length > MAX_HISTORY_LENGTH then
    h.drop (h.length - MAX_HISTORY_LENGTH) else h

/-- Appending a batch of `(role, content)` pairs through `addToHistory`. -/
def appendTurns (store : Store) (id : Key)
    (ts : List (String × String)) : Store :=
  ts.foldl (fun st rc => addToHistory st id rc.1 rc.2) store

def mkTurn (rc : String × String) : Turn := ⟨rc.1, rc.2⟩

/-- `getChatResponse(conversationId, userMessage)` (src/index.js lines
67-95): reads the history for the id (creating the entry on a miss),
issues the remote chat call — opaque here, so its outcome is the
`callResult` parameter — and on success appends the user turn and the
model turn post-hoc and returns the model text; a failure is rethrown
unchanged after logging. -/
def getChatResponse (store : Store) (id : Key) (userMessage : String)
    (callResult : Except String String) : Store × Except String String :=
  let hs := getHistory store id
  match callResult with
  | Except.error e => (hs.2, Except.error e)
  | Except.ok assistantMessage =>
    (addToHistory (addToHistory hs.2 id "user" userMessage)
      id "model" assistantMessage, Except.ok assistantMessage)

/-- The `source` object of an inbound event: each id can be a string or
`undefined` (`none`). -/
structure Source where
  groupId : Option String
  roomId : Option String
  userId : Option String
deriving DecidableEq, Repr

/-- The `message` object of an inbound event. -/
structure EventMessage where
  type : String
  text : String
deriving DecidableEq, Repr

/-- An inbound webhook event, with the fields `handleEvent` reads. -/
structure Event where
  type : String
  message : EventMessage
  replyToken : String
  source : Source
deriving DecidableEq, Repr

/-- JS truthiness of a string-or-undefined value: `undefined` and the
empty string are falsy, every other string is truthy. -/
def truthy : Option String → Bool
  | none => false
  | some s => s != ""

/-- JS `a || b` on string-or-undefined values. -/
def jsOr (a b : Option String) : Option String := if truthy a then a else b

/-- `event.source.groupId || event.source.roomId || event.source.userId`
(src/index.js lines 130-132). -/
def conversationIdOf (src : Source) : Key :=
  jsOr src.groupId (jsOr src.roomId src.userId)

/-- The fixed reset confirmation reply (src/index.js line 141). -/
def resetReplyText : String :=
  "会話履歴をリセットしました！🔄\n新しい会話を始めましょう！"

/-- The fixed help reply (src/index.js lines 151-156). -/
def helpReplyText : String :=
  "🤖 LINE AI Chatbot (Gemini)\n\n" ++
    "話しかけるとAIが応答します！\n\n" ++
    "【コマンド】\n" ++
    "・リセット - 会話履歴をクリア\n" ++
    "・ヘルプ - この説明を表示\n\n" ++
    "何でも聞いてください！😊"

/-- The fixed apology reply sent when the model call fails
(src/index.js line 179). -/
def apologyText : String :=
  "申し訳ありません、エラーが発生しました。🙇\nしばらくしてからもう一度お試しください。"

/-- `handleEvent(event)` (src/index.js lines 119-183). The remote model
call is opaque, so its outcome enters as `modelResult`. The result is the
updated store, the reply sent through the platform client (`none` for the
ignored-event `null` return), and whether the Model Gateway
(`getChatResponse`) was invoked. -/
def handleEvent (ev : Event) (store : Store)
    (modelResult : Except String String) :
    Store × Option (List String) × Bool :=
  if ev.type ≠ "message" ∨ ev.message.type ≠ "text" then
    (store, none, false)
  else
    let userMessage := ev.message.text
    let conversationId := conversationIdOf ev.source
    if userMessage = "リセット" ∨ userMessage = "/reset" then
      (clearHistory store conversationId, some [resetReplyText], false)
    else if userMessage = "ヘルプ" ∨ userMessage = "/help" then
      (store, some [helpReplyText], false)
    else
      match getChatResponse store conversationId userMessage modelResult with
      | (store1, Except.ok ai) =>
        (store1,
          some ((splitMessage ai.toList 4500).map (fun l => String.mk l)),
          true)
      | (store1, Except.error _) => (store1, some [apologyText], true)

example : splitMessage "aaaa".toList 3 = ["aaaa".toList] := by decide

example : splitMessage "aa a".toList 3 = ["aa ".toList, "a".toList] := by decide

example : splitMessage "ab\ncdef".toList 4 = ["ab\n".toList, "cdef".toList] := by
  decide

example : splitMessage [] 5 = [[]] := by decide

example : splitMessageClaimed "aaaa".toList 3 = ["aaa".toList, "a".toList] := by
  decide

theorem lastIdxLe_le {s : List Char} {c : Char} {f i : Nat}
    (h : lastIdxLe s c f = some i) : i ≤ f := by
  have hmem : i ∈ (List.range s.length).filter
      (fun j => decide (j ≤ f) && decide (s.get? j = some c)) := by
    obtain ⟨hne, heq⟩ := List.mem_getLast?_eq_getLast (Option.mem_def.mpr h)
    exact heq ▸ List.getLast_mem hne
  have hp := (List.mem_filter.mp hmem).2
  simp only [Bool.and_eq_true, decide_eq_true_eq] at hp
  exact hp.1

theorem jsLastIndexOf_cases (s : List Char) (c : Char) (f : Nat) :
    jsLastIndexOf s c f = -1 ∨
      (0 ≤ jsLastIndexOf s c f ∧ jsLastIndexOf s c f ≤ (f : Int)) := by
  cases h : lastIdxLe s c f with
  | none =>
    left
    simp [jsLastIndexOf, h]
  | some i =>
    right
    constructor
    · simp only [jsLastIndexOf, h]
      omega
    · simp only [jsLastIndexOf, h]
      exact_mod_cast lastIdxLe_le h

theorem breakPointOf_bounds (r : List Char) (m : Nat) :
    0 ≤ breakPointOf r m ∧ breakPointOf r m ≤ (m : Int) := by
  unfold breakPointOf
  rcases jsLastIndexOf_cases r '\n' m with h1 | h1 <;>
    rcases jsLastIndexOf_cases r '。' m with h2 | h2 <;>
      rcases jsLastIndexOf_cases r ' ' m with h3 | h3 <;>
        simp only [] <;> split_ifs <;> omega

theorem breakPointOf_toNat_le (r : List Char) (m : Nat) :
    (breakPointOf r m).toNat ≤ m := by
  have h := breakPointOf_bounds r m
  omega

/-- Every chunk produced by the loop has length at most `maxLength + 1`:
either it is the final remainder (length `≤ maxLength`) or a cut of
`breakPoint + 1` characters with `breakPoint ≤ maxLength`. -/
theorem splitGo_chunk_le {fuel : Nat} {r : List Char} {m : Nat}
    (hf : r.length ≤ fuel) : ∀ ch ∈ splitGo fuel r m, ch.length ≤ m + 1 := by
  induction fuel generalizing r with
  | zero => simp [splitGo]
  | succ f ih =>
    intro ch hch
    rw [splitGo] at hch
    by_cases h0 : r.length = 0
    · simp [h0] at hch
    · by_cases hfit : r.length ≤ m
      · simp [h0, hfit] at hch
        subst hch
        omega
      · simp only [h0, hfit, if_false] at hch
        rcases List.mem_cons.mp hch with hc | hc
        · subst hc
          have := breakPointOf_toNat_le r m
          simp only [List.length_take]
          omega
        · exact ih (by simp only [List.length_drop]; omega) ch hc

theorem splitGo_flatten {fuel : Nat} {r : List Char} {m : Nat}
    (hf : r.length ≤ fuel) : (splitGo fuel r m).flatten = r := by
  induction fuel generalizing r with
  | zero =>
    have : r = [] := List.length_eq_zero.mp (Nat.le_zero.mp hf)
    simp [splitGo, this]
  | succ f ih =>
    rw [splitGo]
    by_cases h0 : r.length = 0
    · simp [h0, List.length_eq_zero.mp h0]
    · by_cases hfit : r.length ≤ m
      · simp [h0, hfit]
      · simp only [h0, hfit, if_false, List.flatten_cons]
        rw [ih (by simp only [List.length_drop]; omega)]
        exact List.take_append_drop _ r

theorem splitGo_eq_nil_iff {fuel : Nat} {r : List Char} {m : Nat}
    (hf : r.length ≤ fuel) : splitGo fuel r m = [] ↔ r = [] := by
  cases fuel with
  | zero =>
    have : r = [] := List.length_eq_zero.mp (Nat.le_zero.mp hf)
    simp [splitGo, this]
  | succ f =>
    rw [splitGo]
    by_cases h0 : r.length = 0
    · simp [h0, List.length_eq_zero.mp h0]
    · have : r ≠ [] := fun he => h0 (by simp [he])
      by_cases hfit : r.length ≤ m <;> simp [h0, hfit, this]

theorem claimedAccept_some {m p : Nat} {o : Option Nat}
    (h : claimedAccept m o = some p) : ¬ 2 * p < m := by
  cases o with
  | none => simp [claimedAccept] at h
  | some i =>
    simp only [claimedAccept] at h
    by_cases hi : 2 * i < m
    · simp [hi] at h
    · simp [hi] at h
      exact h ▸ hi

/-- One stage of the code's rejection cascade equals `claimedAccept` with
fallback `k`. -/
theorem claimedAccept_corr (m : Nat) (s : List Char) (c : Char) (k : Int) :
    (if jsLastIndexOf s c m = -1 ∨ 2 * jsLastIndexOf s c m < (m : Int) then k
      else jsLastIndexOf s c m) =
    (match claimedAccept m (lastIdxLe s c m) with
      | some p => (p : Int)
      | none => k) := by
  cases h : lastIdxLe s c m with
  | none => simp [jsLastIndexOf, h, claimedAccept]
  | some i =>
    simp only [jsLastIndexOf, h, claimedAccept]
    by_cases hi : 2 * i < m
    · have hb : (i : Int) = -1 ∨ 2 * (i : Int) < (m : Int) :=
        Or.inr (by exact_mod_cast hi)
      rw [if_pos hb, if_pos hi]
    · have hb : ¬((i : Int) = -1 ∨ 2 * (i : Int) < (m : Int)) := by
        push_neg
        constructor <;> omega
      rw [if_neg hb, if_neg hi]

/-- The code's `Int`-valued break point agrees with the claimed cascade,
with hard-cut default `maxLength`. -/
theorem breakPointOf_eq_claimed (r : List Char) (m : Nat) :
    breakPointOf r m = (((claimedBreakPoint r m).getD m : Nat) : Int) := by
  simp only [breakPointOf, claimedBreakPoint]
  rw [claimedAccept_corr m r '\n' (jsLastIndexOf r '。' m)]
  cases hA1 : claimedAccept m (lastIdxLe r '\n' m) with
  | some p =>
    have hb : ¬((p : Int) = -1 ∨ 2 * (p : Int) < (m : Int)) := by
      have := claimedAccept_some hA1
      push_neg
      constructor <;> omega
    simp only [hA1, if_neg hb, Option.getD_some]
  | none =>
    simp only [hA1]
    rw [claimedAccept_corr m r '。' (jsLastIndexOf r ' ' m)]
    cases hA2 : claimedAccept m (lastIdxLe r '。' m) with
    | some p =>
      have hb : ¬((p : Int) = -1 ∨ 2 * (p : Int) < (m : Int)) := by
        have := claimedAccept_some hA2
        push_neg
        constructor <;> omega
      simp only [hA2, if_neg hb, Option.getD_some]
    | none =>
      simp only [hA2]
      rw [claimedAccept_corr m r ' ' ((m : Nat) : Int)]
      cases hA3 : claimedAccept m (lastIdxLe r ' ' m) with
      | some p => simp only [hA3, Option.getD_some]
      | none => simp only [hA3, Option.getD_none]

theorem breakPointOf_toNat_eq (r : List Char) (m : Nat) :
    (breakPointOf r m).toNat = (claimedBreakPoint r m).getD m := by
  rw [breakPointOf_eq_claimed]
  exact Int.toNat_natCast _

theorem splitGo_nil (fuel m : Nat) : splitGo fuel [] m = [] := by
  cases fuel <;> simp [splitGo]

theorem splitFixedGo_eq_splitGo (fuel : Nat) (r : List Char) (m : Nat) :
    splitFixedGo fuel r m = splitGo fuel r m := by
  induction fuel generalizing r with
  | zero => rfl
  | succ f ih =>
    rw [splitFixedGo, splitGo]
    by_cases h0 : r.length = 0
    · simp [h0]
    · by_cases hfit : r.length ≤ m
      · simp [h0, hfit]
      · simp only [h0, hfit, if_false]
        cases hcb : claimedBreakPoint r m with
        | some p =>
          have hbp : (breakPointOf r m).toNat = p := by
            rw [breakPointOf_toNat_eq, hcb]
            rfl
          simp only [hbp, ih]
        | none =>
          have hbp : (breakPointOf r m).toNat = m := by
            rw [breakPointOf_toNat_eq, hcb]
            rfl
          simp only [hbp, ih]

theorem splitGo_length_eq_one {fuel : Nat} {r : List Char} {m : Nat}
    (hf : r.length ≤ fuel) (hgt : m < r.length) :
    (splitGo fuel r m).length = 1 ↔
      (r.length = m + 1 ∧ breakPointOf r m = (m : Int)) := by
  cases fuel with
  | zero => omega
  | succ f =>
    rw [splitGo]
    have h0 : ¬ r.length = 0 := by omega
    have hfit : ¬ r.length ≤ m := by omega
    simp only [h0, hfit, if_false]
    have hbds := breakPointOf_bounds r m
    have hbpi : breakPointOf r m = ((breakPointOf r m).toNat : Int) := by
      omega
    have hbple : (breakPointOf r m).toNat ≤ m := breakPointOf_toNat_le r m
    have hrest : (r.drop ((breakPointOf r m).toNat + 1)).length ≤ f := by
      simp only [List.length_drop]
      omega
    rw [List.length_cons]
    constructor
    · intro h1
      have hnil : splitGo f (r.drop ((breakPointOf r m).toNat + 1)) m = [] := by
        cases hsg : splitGo f (r.drop ((breakPointOf r m).toNat + 1)) m with
        | nil => rfl
        | cons a l =>
          rw [hsg] at h1
          simp at h1
      have hre := (splitGo_eq_nil_iff hrest).mp hnil
      have hlen0 : r.length - ((breakPointOf r m).toNat + 1) = 0 := by
        rw [← List.length_drop, hre]
        rfl
      constructor
      · omega
      · omega
    · rintro ⟨hlen, hbm⟩
      have hre : r.drop ((breakPointOf r m).toNat + 1) = [] := by
        apply List.length_eq_zero.mp
        simp only [List.length_drop]
        omega
      rw [hre, splitGo_nil]
      rfl

/-- Claim C1, as stated: every chunk returned by
`splitMessage(text, maxLength)` has length at most `maxLength`. This fails:
on `"aaaa"` with `maxLength = 3` the hard cut sets `breakPoint = 3` and
pushes `substring(0, 4)`, a single chunk of 4 characters. -/
theorem splitMessage_chunk_le_cex :
    ¬ ∀ ch ∈ splitMessage "aaaa".toList 3, ch.length ≤ 3 := by decide

/-- Claim C1 (amended): for every text and positive `maxLength`, every
chunk returned by `splitMessage(text, maxLength)` has length at most
`maxLength + 1` (the code keeps the character at the break-point index,
so a break point at index `maxLength` — any hard cut, or a separator
found at exactly index `maxLength` — yields `maxLength + 1` characters). -/
theorem splitMessage_chunk_le (text : List Char) (m : Nat) (h : 0 < m) :
    ∀ ch ∈ splitMessage text m, ch.length ≤ m + 1 := by
  intro ch hch
  unfold splitMessage at hch
  by_cases hfit : text.length ≤ m
  · simp only [hfit, if_true] at hch
    simp at hch
    subst hch
    omega
  · simp only [hfit, if_false] at hch
    exact splitGo_chunk_le (le_refl _) ch hch

theorem splitMessage_chunk_le_witness :
    0 < 3 ∧ ("aaaa".toList ∈ splitMessage "aaaa".toList 3 →
      ("aaaa".toList).length ≤ 3 + 1) :=
  ⟨by decide, splitMessage_chunk_le "aaaa".toList 3 (by decide) "aaaa".toList⟩

/-- Claim C2: for every text and positive `maxLength`, concatenating the
chunks of `splitMessage(text, maxLength)` in order reproduces the text,
and empty text yields the single-element sequence containing the empty
string. -/
theorem splitMessage_flatten (text : List Char) (m : Nat) (h : 0 < m) :
    (splitMessage text m).flatten = text ∧
      splitMessage ([] : List Char) m = [[]] := by
  constructor
  · unfold splitMessage
    by_cases hfit : text.length ≤ m
    · simp [hfit]
    · simp only [hfit, if_false]
      exact splitGo_flatten (le_refl _)
  · simp [splitMessage]

theorem splitMessage_flatten_witness :
    0 < 1 ∧ ((splitMessage "ab".toList 1).flatten = "ab".toList ∧
      splitMessage ([] : List Char) 1 = [[]]) :=
  ⟨by decide, splitMessage_flatten "ab".toList 1 (by decide)⟩

/-- Claim C3, as stated: the cut procedure hard-cuts at exactly
`maxLength` characters. This fails: the code pushes
`substring(0, breakPoint + 1)` with `breakPoint = maxLength`, i.e. the
hard cut takes `maxLength + 1` characters, so on `"aaaa"` with
`maxLength = 3` the claimed procedure gives `["aaa", "a"]` while the code
gives `["aaaa"]`. -/
theorem splitMessage_cut_procedure_cex :
    splitMessageClaimed "aaaa".toList 3 ≠ splitMessage "aaaa".toList 3 := by
  decide

/-- Claim C3 (amended): the cut procedure is as claimed — last newline at
or before index `maxLength`, else (none or below `maxLength / 2`) last
sentence terminator, else last space, else hard cut — except that a cut
at break point `p` takes the first `p + 1` characters (the separator
stays in the chunk) and the hard cut takes `maxLength + 1` characters
(break-point index exactly `maxLength`), repeating on the remainder. -/
theorem splitMessage_cut_procedure (text : List Char) (m : Nat) :
    splitMessageFixed text m = splitMessage text m := by
  unfold splitMessageFixed splitMessage
  by_cases hfit : text.length ≤ m <;>
    simp [hfit, splitFixedGo_eq_splitGo]

/-- Claim C4, as stated: `splitMessage(text, maxLength)` returns exactly
one chunk iff `text.length ≤ maxLength`. This fails on `"aaaa"` with
`maxLength = 3`: one chunk is returned although the length is 4. -/
theorem splitMessage_single_iff_cex :
    ¬(((splitMessage "aaaa".toList 3).length = 1) ↔
      ("aaaa".toList.length ≤ 3)) := by decide

/-- Claim C4 (amended): for positive `maxLength`, `splitMessage` returns
exactly one chunk iff `text.length ≤ maxLength`, or `text.length` is
exactly `maxLength + 1` and the break-point search selects index
`maxLength` (in particular every hard cut at that length), in which case
the single chunk has `maxLength + 1` characters. -/
theorem splitMessage_single_iff (text : List Char) (m : Nat) (h : 0 < m) :
    (splitMessage text m).length = 1 ↔
      (text.length ≤ m ∨
        (text.length = m + 1 ∧ breakPointOf text m = (m : Int))) := by
  unfold splitMessage
  by_cases hfit : text.length ≤ m
  · simp [hfit]
  · simp only [hfit, if_false]
    rw [splitGo_length_eq_one (le_refl _) (by omega)]
    tauto

theorem splitMessage_single_iff_witness :
    0 < 3 ∧ (((splitMessage "aaaa".toList 3).length = 1) ↔
      ("aaaa".toList.length ≤ 3 ∨
        ("aaaa".toList.length = 3 + 1 ∧
          breakPointOf "aaaa".toList 3 = (3 : Int)))) :=
  ⟨by decide, splitMessage_single_iff "aaaa".toList 3 (by decide)⟩

theorem lookupEntry_setEntry (store : Store) (k j : Key) (v : List Turn) :
    lookupEntry (setEntry store k v) j =
      if k = j then some v else lookupEntry store j := by
  induction store with
  | nil => simp [setEntry, lookupEntry]
  | cons e rest ih =>
    obtain ⟨k', w⟩ := e
    by_cases hk : k' = k
    · subst hk
      by_cases hj : k' = j <;> simp [setEntry, lookupEntry, hj]
    · simp only [setEntry, lookupEntry, if_neg hk]
      by_cases hj : k' = j
      · subst hj
        have : ¬ k = k' := fun he => hk he.symm
        simp [lookupEntry, this]
      · simp [lookupEntry, hj, ih]

theorem lookupEntry_delEntry (store : Store) (k j : Key) :
    lookupEntry (delEntry store k) j =
      if k = j then none else lookupEntry store j := by
  induction store with
  | nil => simp [delEntry, lookupEntry]
  | cons e rest ih =>
    obtain ⟨k', w⟩ := e
    by_cases hk : k' = k
    · subst hk
      by_cases hj : k' = j
      · subst hj
        simp [delEntry, lookupEntry, ih]
      · simp [delEntry, lookupEntry, hj, ih]
    · simp only [delEntry, if_neg hk]
      by_cases hj : k' = j
      · subst hj
        have : ¬ k = k' := fun he => hk he.symm
        simp [lookupEntry, this]
      · simp [lookupEntry, hj, ih]

theorem getHistory_fst (store : Store) (id : Key) :
    (getHistory store id).1 = histOf store id := by
  unfold getHistory histOf
  cases lookupEntry store id <;> simp

theorem histOf_getHistory_snd (store : Store) (id j : Key) :
    histOf (getHistory store id).2 j = histOf store j := by
  unfold getHistory histOf
  cases h : lookupEntry store id with
  | some v => rfl
  | none =>
    simp only [lookupEntry_setEntry]
    by_cases hj : id = j
    · subst hj
      simp [h]
    · simp [hj]

theorem histOf_addToHistory_self (store : Store) (id : Key)
    (r c : String) :
    histOf (addToHistory store id r c) id =
      trimHist (histOf store id ++ [⟨r, c⟩]) := by
  unfold addToHistory trimHist histOf
  rw [lookupEntry_setEntry, if_pos rfl, Option.getD_some, getHistory_fst]
  rfl

theorem histOf_addToHistory_other (store : Store) (id j : Key)
    (r c : String) (hne : id ≠ j) :
    histOf (addToHistory store id r c) j = histOf store j := by
  unfold addToHistory
  show histOf (setEntry (getHistory store id).2 id _) j = _
  unfold histOf
  rw [lookupEntry_setEntry, if_neg hne]
  exact histOf_getHistory_snd store id j

theorem trimHist_length_le (h : List Turn) :
    (trimHist h).length ≤ MAX_HISTORY_LENGTH := by
  unfold trimHist
  split_ifs with hgt
  · simp only [List.length_drop]
    omega
  · omega

theorem histOf_appendTurns (store : Store) (id : Key)
    (ts : List (String × String)) :
    histOf (appendTurns store id ts) id =
      ts.foldl (fun h rc => trimHist (h ++ [mkTurn rc]))
        (histOf store id) := by
  induction ts generalizing store with
  | nil => rfl
  | cons rc ts ih =>
    show histOf (appendTurns (addToHistory store id rc.1 rc.2) id ts) id = _
    rw [ih, List.foldl_cons, histOf_addToHistory_self]
    rfl

theorem trimHist_snoc (l : List Turn) (x : Turn) :
    trimHist (l.drop (l.length - MAX_HISTORY_LENGTH) ++ [x]) =
      (l ++ [x]).drop ((l ++ [x]).length - MAX_HISTORY_LENGTH) := by
  unfold trimHist
  by_cases hl : MAX_HISTORY_LENGTH ≤ l.length
  · have hd : (l.drop (l.length - MAX_HISTORY_LENGTH)).length =
        MAX_HISTORY_LENGTH := by
      simp only [List.length_drop]
      omega
    have hM : 0 < MAX_HISTORY_LENGTH := by decide
    rw [if_pos (by simp only [List.length_append, hd, List.length_cons,
      List.length_nil]; omega)]
    simp only [List.length_append, hd, List.length_cons, List.length_nil]
    rw [List.drop_append_of_le_length (by omega),
      List.drop_append_of_le_length (by omega), List.drop_drop]
    congr 2
    omega
  · have h0 : l.length - MAX_HISTORY_LENGTH = 0 := by omega
    rw [h0, List.drop_zero,
      if_neg (by simp only [List.length_append, List.length_cons,
        List.length_nil]; omega)]
    have h0' : (l ++ [x]).length - MAX_HISTORY_LENGTH = 0 := by
      simp only [List.length_append, List.length_cons, List.length_nil]
      omega
    rw [h0', List.drop_zero]

theorem foldl_trimHist (L : List Turn) :
    L.foldl (fun h t => trimHist (h ++ [t])) [] =
      L.drop (L.length - MAX_HISTORY_LENGTH) := by
  induction L using List.reverseRecOn with
  | nil => rfl
  | append_singleton l x ih =>
    rw [List.foldl_append, List.foldl_cons, List.foldl_nil, ih,
      trimHist_snoc]

/-- Claim C5: for every conversation id, starting from an empty history,
after appending N turns the history has length `min N 20`, it is exactly
the most recent (at most 20) appended turns in append order, and the
length stays at most `MAX_HISTORY_LENGTH` after every `addToHistory`. -/
theorem history_bounded_recent (id : Key) (ts : List (String × String)) :
    (histOf (appendTurns [] id ts) id).length =
      min ts.length MAX_HISTORY_LENGTH ∧
    histOf (appendTurns [] id ts) id =
      (ts.map mkTurn).drop (ts.length - MAX_HISTORY_LENGTH) ∧
    ∀ (store : Store) (r c : String),
      (histOf (addToHistory store id r c) id).length ≤
        MAX_HISTORY_LENGTH := by
  have hmain : histOf (appendTurns ([] : Store) id ts) id =
      (ts.map mkTurn).drop
        ((ts.map mkTurn).length - MAX_HISTORY_LENGTH) := by
    rw [histOf_appendTurns]
    have h0 : histOf ([] : Store) id = [] := rfl
    rw [h0, ← List.foldl_map mkTurn (fun h t => trimHist (h ++ [t])) ts []]
    exact foldl_trimHist _
  refine ⟨?_, ?_, ?_⟩
  · rw [hmain]
    simp only [List.length_drop, List.length_map]
    omega
  · rw [hmain, List.length_map]
  · intro store r c
    rw [histOf_addToHistory_self]
    exact trimHist_length_le _

/-- Claim C6: `clearHistory(id)` removes the mapping entry entirely, and a
subsequent `getHistory(id)` returns an empty history and inserts a fresh
empty entry into the mapping. -/
theorem clearHistory_then_getHistory (store : Store) (id : Key) :
    lookupEntry (clearHistory store id) id = none ∧
    (getHistory (clearHistory store id) id).1 = [] ∧
    lookupEntry (getHistory (clearHistory store id) id).2 id = some [] := by
  have h1 : lookupEntry (clearHistory store id) id = none := by
    unfold clearHistory
    rw [lookupEntry_delEntry, if_pos rfl]
  refine ⟨h1, ?_, ?_⟩
  · rw [getHistory_fst]
    unfold histOf
    rw [h1]
    rfl
  · unfold getHistory
    rw [h1]
    rw [lookupEntry_setEntry, if_pos rfl]

/-- Claim C7: if the remote model call fails, the turns stored for every
conversation are exactly what they were before the call (no user-only or
partial turn is recorded) and the error propagates; if it succeeds,
exactly the user turn then the model turn are appended (subject to the
store's 20-turn cap) for that id, other conversations are untouched, and
the model's text is returned. -/
theorem getChatResponse_spec (store : Store) (id : Key)
    (msg ai e : String) :
    (getChatResponse store id msg (Except.error e)).2 = Except.error e ∧
    (∀ j, histOf (getChatResponse store id msg (Except.error e)).1 j =
      histOf store j) ∧
    (getChatResponse store id msg (Except.ok ai)).2 = Except.ok ai ∧
    histOf (getChatResponse store id msg (Except.ok ai)).1 id =
      trimHist (trimHist (histOf store id ++ [⟨"user", msg⟩]) ++
        [⟨"model", ai⟩]) ∧
    (∀ j, j ≠ id →
      histOf (getChatResponse store id msg (Except.ok ai)).1 j =
        histOf store j) := by
  refine ⟨rfl, ?_, rfl, ?_, ?_⟩
  · intro j
    exact histOf_getHistory_snd store id j
  · show histOf (addToHistory (addToHistory (getHistory store id).2
      id "user" msg) id "model" ai) id = _
    rw [histOf_addToHistory_self, histOf_addToHistory_self,
      histOf_getHistory_snd]
  · intro j hne
    show histOf (addToHistory (addToHistory (getHistory store id).2
      id "user" msg) id "model" ai) j = _
    rw [histOf_addToHistory_other _ _ _ _ _ (Ne.symm hne),
      histOf_addToHistory_other _ _ _ _ _ (Ne.symm hne),
      histOf_getHistory_snd]

theorem getChatResponse_spec_witness :
    (getChatResponse [] (some "C") "hi" (Except.error "boom")).2 =
      Except.error "boom" ∧
    histOf (getChatResponse [] (some "C") "hi" (Except.ok "yo")).1
      (some "D") = histOf ([] : Store) (some "D") :=
  ⟨(getChatResponse_spec [] (some "C") "hi" "yo" "boom").1,
    (getChatResponse_spec [] (some "C") "hi" "yo" "boom").2.2.2.2
      (some "D") (by decide)⟩

/-- Claim C8: on a text-message event whose text is a reset token the
dispatcher clears that conversation's history entry and replies with the
fixed confirmation without calling the Model Gateway; on a help token it
replies with the fixed help message without calling the Model Gateway and
without mutating any history. -/
theorem handleEvent_commands (ev : Event) (store : Store)
    (mr : Except String String)
    (hty : ev.type = "message") (hmty : ev.message.type = "text") :
    ((ev.message.text = "リセット" ∨ ev.message.text = "/reset") →
      handleEvent ev store mr =
        (clearHistory store (conversationIdOf ev.source),
          some [resetReplyText], false)) ∧
    ((ev.message.text = "ヘルプ" ∨ ev.message.text = "/help") →
      handleEvent ev store mr = (store, some [helpReplyText], false)) := by
  constructor
  · intro hcmd
    unfold handleEvent
    rw [if_neg (by simp [hty, hmty]), if_pos hcmd]
  · intro hcmd
    have hnr : ¬(ev.message.text = "リセット" ∨
        ev.message.text = "/reset") := by
      rcases hcmd with h | h <;> rw [h] <;> decide
    unfold handleEvent
    rw [if_neg (by simp [hty, hmty]), if_neg hnr, if_pos hcmd]

theorem handleEvent_commands_witness :
    handleEvent ⟨"message", ⟨"text", "リセット"⟩, "tok",
        ⟨some "G1", none, some "U1"⟩⟩ [] (Except.ok "x") =
      (clearHistory [] (conversationIdOf ⟨some "G1", none, some "U1"⟩),
        some [resetReplyText], false) :=
  (handleEvent_commands _ [] (Except.ok "x") rfl rfl).1 (Or.inl rfl)

/-- Claim C9: on a text-message event that is not a recognized command,
if the Model Gateway call fails the dispatcher replies with the single
fixed apology message; `handleEvent` returns normally, so the error does
not reach the HTTP layer. -/
theorem handleEvent_model_failure (ev : Event) (store : Store) (e : String)
    (hty : ev.type = "message") (hmty : ev.message.type = "text")
    (h1 : ev.message.text ≠ "リセット") (h2 : ev.message.text ≠ "/reset")
    (h3 : ev.message.text ≠ "ヘルプ") (h4 : ev.message.text ≠ "/help") :
    (handleEvent ev store (Except.error e)).2.1 = some [apologyText] := by
  unfold handleEvent
  rw [if_neg (by simp [hty, hmty]), if_neg (by tauto), if_neg (by tauto)]
  rfl

theorem handleEvent_model_failure_witness :
    (handleEvent ⟨"message", ⟨"text", "こんにちは"⟩, "tok",
        ⟨none, none, some "U1"⟩⟩ [] (Except.error "boom")).2.1 =
      some [apologyText] :=
  handleEvent_model_failure _ [] "boom" rfl rfl (by decide) (by decide)
    (by decide) (by decide)

/-- Claim C10: the conversation identifier is chosen by JS truthiness
fallback over `groupId`, then `roomId`, then `userId`; an empty-string or
`undefined` `groupId` or `roomId` is skipped in favour of the next
identifier in the precedence order. -/
theorem conversationId_truthiness (g r u : Option String) :
    (truthy g = true → conversationIdOf ⟨g, r, u⟩ = g) ∧
    (truthy g = false → truthy r = true → conversationIdOf ⟨g, r, u⟩ = r) ∧
    (truthy g = false → truthy r = false →
      conversationIdOf ⟨g, r, u⟩ = u) ∧
    truthy (some "") = false ∧ truthy none = false := by
  refine ⟨?_, ?_, ?_, rfl, rfl⟩
  · intro hg
    simp [conversationIdOf, jsOr, hg]
  · intro hg hr
    simp [conversationIdOf, jsOr, hg, hr]
  · intro hg hr
    simp [conversationIdOf, jsOr, hg, hr]

theorem conversationId_truthiness_witness :
    conversationIdOf ⟨some "", some "R1", some "U1"⟩ = some "R1" :=
  (conversationId_truthiness (some "") (some "R1") (some "U1")).2.1
    (by decide) (by decide)

end LineBot
